import Mathlib

/-!
Verification of the epoch construction of pylinkparse
(`src/pylinkparse/epochs.py`, class `Epochs`, method `__init__`).

The embedding below follows the source line by line.  Continuous samples of
the recording are represented by their absolute times (the `time` column of
`raw._samples`, which is also the vector `times` returned by `raw[:]`); the
three discrete tables are lists of rows carrying `stime`, `etime` and the
remaining attribute columns; machine floats of the source are modelled by
exact rationals.  Fallible steps of `__init__` return `Except PyErr`, one
error constructor per concrete raise site of the Python code.  The `Raw`
collaborator itself (raw.py) is not part of the sources, so its interface is
modelled from the spec: indexed time access, a time-to-sample-index
conversion function, and the three discrete tables, each possibly absent.
-/

namespace PyLinkParse

/-- Errors raised by the Python runtime at the failure points of
`Epochs.__init__`.  Each constructor names one concrete raise site. -/
inductive PyErr where
  /-- Raised by `times[event]` when a marker's sample index is out of range
  (line 49). -/
  | indexError : PyErr
  /-- Raised when a discrete table is absent: `getattr(raw, etype)` at
  line 60, or `this_in.columns` on the `None` default of line 119. -/
  | attributeError : PyErr
  /-- Raised by `assert_array_less(stime, etime)` at line 62, or by the
  `assert set(track_inds) == set([min_samples])` at line 90. -/
  | assertionError : PyErr
  /-- Raised by `np.min(min_samples)` on an empty list (line 70), when no
  marker was accepted. -/
  | valueErrorEmptyMin : PyErr
  /-- Raised by `ind, _ = zip(*values)` (line 76) for an admissible event id
  with no accepted marker (need more than 0 values to unpack). -/
  | valueErrorUnpack : PyErr
  /-- Raised by the column assignment of line 94 when the assigned vector's
  length differs from the table's row count. -/
  | valueErrorLength : PyErr
  /-- Raised by `set_index(..., verify_integrity=True)` at line 97 when the
  compound key is not unique. -/
  | valueErrorDupIndex : PyErr
deriving DecidableEq, Repr

deriving instance DecidableEq for Except

/-- The three discrete gaze-event kinds, in the order the source iterates
them (`raw.info` event types at line 59, and the literal list at line 117). -/
inductive Kind where
  | saccade : Kind
  | fixation : Kind
  | blink : Kind
deriving DecidableEq, Repr

/-- One row of a discrete-event table: the `stime` and `etime` columns plus
the values of the remaining attribute columns of that kind, in schema
order. -/
structure DRow where
  stime : ℚ
  etime : ℚ
  attrs : List ℚ
deriving DecidableEq, Repr

/-- Modelled from the spec: the `Raw` recording collaborator (raw.py is not
among the sources).  It exposes the absolute time of every continuous sample
row, an abstract time-to-sample-index conversion (`raw.time_as_index`), and
the three discrete tables; a table may be absent, which the source meets
with `getattr`. -/
structure Raw where
  times : List ℚ
  timeAsIndex : ℚ → ℕ
  saccades : Option (List DRow)
  fixations : Option (List DRow)
  blinks : Option (List DRow)

/-- The construction parameters: the admissible event codes (the values of
`event_id` when it is a mapping, or the single scalar code), and the window
bounds `tmin`, `tmax` in seconds. -/
structure Cfg where
  myEventId : List ℤ
  tmin : ℚ
  tmax : ℚ

/-- The discrete table of a kind, as fetched by `getattr` in the source. -/
def Raw.tableOf (raw : Raw) : Kind → Option (List DRow)
  | Kind.saccade => raw.saccades
  | Kind.fixation => raw.fixations
  | Kind.blink => raw.blinks

/-- Sample-index range `np.arange(a, b)` (line 54); empty when `b ≤ a`. -/
def arange (a b : ℕ) : List ℕ := (List.range (b - a)).map fun k => a + k

/-- Default row used for positional reads of a discrete table; every read is
at a position produced by `np.where` over the same table, hence in range. -/
def dfltRow : DRow := ⟨0, 0, []⟩

/-- Row indices of a discrete table whose event lies in the marker's window:
`np.where((stime >= this_tmin) & (etime <= this_tmax))` (lines 63 to 64). -/
def eventInWindow (df : List DRow) (lo hi : ℚ) : List ℕ :=
  (List.range df.length).filter fun i =>
    decide (lo ≤ (df.getD i dfltRow).stime) && decide ((df.getD i dfltRow).etime ≤ hi)

/-- Per-kind work of lines 59 to 65 for one accepted marker: fetch the table
(AttributeError when absent), run `assert_array_less(stime, etime)`, and
record the indices of the rows lying inside the window. -/
def windowEvents (df? : Option (List DRow)) (lo hi : ℚ) : Except PyErr (List ℕ) :=
  match df? with
  | none => Except.error PyErr.attributeError
  | some df =>
    if df.all fun r => decide (r.stime < r.etime) then Except.ok (eventInWindow df lo hi)
    else Except.error PyErr.assertionError

/-- One accepted marker: its epoch index `ii`, its event code, its raw
(pre-truncation) sample-index range `np.arange(inds_min, inds_max)`, and the
per-kind in-window discrete row indices recorded at lines 59 to 65. -/
structure Acc where
  ii : ℕ
  code : ℤ
  inds : List ℕ
  sacc : List ℕ
  fixa : List ℕ
  blin : List ℕ
deriving DecidableEq, Repr

/-- The recorded in-window row indices of one kind. -/
def Acc.kindInds (a : Acc) : Kind → List ℕ
  | Kind.saccade => a.sacc
  | Kind.fixation => a.fixa
  | Kind.blink => a.blin

/-- Outcome of the loop body of lines 46 to 65 for one marker: skipped
(inadmissible code), break (window bound at or past the end of the sample
table), a raised error, or acceptance carrying the raw sample-index range
and the three per-kind in-window index lists. -/
inductive MarkerRes where
  | skip : MarkerRes
  | brk : MarkerRes
  | err : PyErr → MarkerRes
  | acc : List ℕ → List ℕ → List ℕ → List ℕ → MarkerRes
deriving DecidableEq, Repr

/-- The loop body of lines 46 to 65 for one marker `(event, this_id)`:
skip when the code is not admissible (line 47); read `times[event]`
(line 49, IndexError when out of range); convert both window bounds and
break when either converted bound reaches the end of the sample table
(lines 51 to 53); otherwise run the three per-kind scans of lines 59 to 65
and accept with `np.arange(inds_min, inds_max)`. -/
def markerStep (raw : Raw) (cfg : Cfg) (event : ℕ) (thisId : ℤ) : MarkerRes :=
  if thisId ∈ cfg.myEventId then
    match raw.times[event]? with
    | none => MarkerRes.err PyErr.indexError
    | some thisTime =>
      if raw.times.length ≤
          max (raw.timeAsIndex (thisTime + cfg.tmin)) (raw.timeAsIndex (thisTime + cfg.tmax)) then
        MarkerRes.brk
      else
        match windowEvents raw.saccades (thisTime + cfg.tmin) (thisTime + cfg.tmax),
            windowEvents raw.fixations (thisTime + cfg.tmin) (thisTime + cfg.tmax),
            windowEvents raw.blinks (thisTime + cfg.tmin) (thisTime + cfg.tmax) with
        | Except.ok s, Except.ok f, Except.ok b =>
          MarkerRes.acc
            (arange (raw.timeAsIndex (thisTime + cfg.tmin)) (raw.timeAsIndex (thisTime + cfg.tmax)))
            s f b
        | Except.error e, _, _ => MarkerRes.err e
        | Except.ok _, Except.error e, _ => MarkerRes.err e
        | Except.ok _, Except.ok _, Except.error e => MarkerRes.err e
  else MarkerRes.skip

/-- The marker loop of lines 43 to 67: fold `markerStep` over the event
list, threading the accepted markers; `brk` returns the markers accepted so
far, and an accepted marker receives the next sequential epoch index
(`ii`, the current length of the accumulator, since `ii` is incremented
exactly on acceptance). -/
def extractLoop (raw : Raw) (cfg : Cfg) : List Acc → List (ℕ × ℤ) → Except PyErr (List Acc)
  | st, [] => Except.ok st
  | st, (event, thisId) :: rest =>
    match markerStep raw cfg event thisId with
    | MarkerRes.skip => extractLoop raw cfg st rest
    | MarkerRes.brk => Except.ok st
    | MarkerRes.err e => Except.error e
    | MarkerRes.acc inds s f b =>
      extractLoop raw cfg (st ++ [⟨st.length, thisId, inds, s, f, b⟩]) rest

/-- Line 69, `self.events = events[keep_idx]`.  The loop appends the counter
`ii` (not the marker's position in the input) to `keep_idx`, so `keep_idx`
is `[0, 1, ..., nAcc-1]` and the selected rows are the first `nAcc` rows of
the input event array. -/
def selfEvents (events : List (ℕ × ℤ)) (nAcc : ℕ) : List (ℕ × ℤ) := events.take nAcc

/-- Line 70, `np.min(min_samples)` over the raw per-window sample counts;
`none` models the ValueError on an empty reduction. -/
def minSamplesOf (accepted : List Acc) : Option ℕ := (accepted.map fun a => a.inds.length).min?

/-- One row of the assembled table: the originating continuous-sample index
with its absolute time (the `time` column), the `event_id` and `epoch_idx`
tags, the relative-time cell assigned at line 94, and one overlay cell per
kind.  `none` models the null initialization of lines 102 to 114; a written
cell holds a full source discrete row, because lines 129 to 131 copy every
column of the kind from one source row with one shared row mask.  (The
label substitution of line 79 for mapping-valued `event_id` is immaterial to
the claims and the code is kept with the raw code.) -/
structure SRow where
  sampleIdx : ℕ
  time : ℚ
  eventId : ℤ
  epochIdx : ℕ
  rtime : Option ℚ
  sacc : Option DRow
  fixa : Option DRow
  blin : Option DRow
deriving DecidableEq, Repr

/-- The overlay cell of one kind. -/
def SRow.kindCell (r : SRow) : Kind → Option DRow
  | Kind.saccade => r.sacc
  | Kind.fixation => r.fixa
  | Kind.blink => r.blin

/-- Write the overlay cell of one kind. -/
def SRow.setKind (r : SRow) (k : Kind) (v : Option DRow) : SRow :=
  match k with
  | Kind.saccade => ⟨r.sampleIdx, r.time, r.eventId, r.epochIdx, r.rtime, v, r.fixa, r.blin⟩
  | Kind.fixation => ⟨r.sampleIdx, r.time, r.eventId, r.epochIdx, r.rtime, r.sacc, v, r.blin⟩
  | Kind.blink => ⟨r.sampleIdx, r.time, r.eventId, r.epochIdx, r.rtime, r.sacc, r.fixa, v⟩

/-- Rows contributed by one accepted marker after truncation (lines 77 to
82): the first `ms` sample indices of its raw range (`i[:min_samples]` keeps
the leading samples), tagged with its event code and epoch index; overlay
cells start null. -/
def epochRows (raw : Raw) (ms : ℕ) (a : Acc) : List SRow :=
  (a.inds.take ms).map fun i => ⟨i, raw.times.getD i 0, a.code, a.ii, none, none, none, none⟩

/-- Concatenated group rows for the listed event ids, in order: the
assembled table before sorting, as built by lines 72 to 84 when every listed
id has at least one accepted marker. -/
def assembleGroups (raw : Raw) (ms : ℕ) (accepted : List Acc) (ids : List ℤ) : List SRow :=
  ids.flatMap fun id =>
    (accepted.filter fun a => decide (a.code = id)).flatMap (epochRows raw ms)

/-- The group loop of lines 72 to 84 over the keys of `sample_inds`.  An id
with no accepted marker makes `ind, _ = zip(*values)` raise (ValueError:
need more than 0 values to unpack). -/
def assembleGroupsE (raw : Raw) (ms : ℕ) (accepted : List Acc) :
    List ℤ → Except PyErr (List SRow)
  | [] => Except.ok []
  | id :: rest =>
    if ((accepted.filter fun a => decide (a.code = id)).isEmpty : Bool) then
      Except.error PyErr.valueErrorUnpack
    else
      match assembleGroupsE raw ms accepted rest with
      | Except.ok rows =>
        Except.ok (((accepted.filter fun a => decide (a.code = id)).flatMap (epochRows raw ms)) ++ rows)
      | Except.error e => Except.error e

/-- The `track_inds` list of line 84: truncated per-epoch sample counts, in
group order. -/
def trackIndsOf (ms : ℕ) (accepted : List Acc) (ids : List ℤ) : List ℕ :=
  ids.flatMap fun id =>
    (accepted.filter fun a => decide (a.code = id)).map fun a => (a.inds.take ms).length

/-- Lexicographic `(epoch_idx, time)` comparison used to sort the assembled
table at lines 86 to 89. -/
def rowLE (r s : SRow) : Bool :=
  decide (r.epochIdx < s.epochIdx) || (decide (r.epochIdx = s.epochIdx) && decide (r.time ≤ s.time))

/-- The sorted assembled table (line 89; pandas sort is stable, as is
mergeSort). -/
def sortData (l : List SRow) : List SRow := l.mergeSort rowLE

/-- The relative time axis `np.linspace(tmin, tmax, n)` of line 93, in exact
rational arithmetic; numpy returns the single point `tmin` for `n = 1`. -/
def linspace (a b : ℚ) (n : ℕ) : List ℚ :=
  if n = 1 then [a]
  else (List.range n).map fun i : ℕ => a + (i : ℚ) * (b - a) / ((n : ℚ) - 1)

/-- The vector `np.tile(v, n)` of line 94: `v` repeated `n` times. -/
def tile (v : List ℚ) (n : ℕ) : List ℚ := (List.range n).flatMap fun _ => v

/-- Columnwise assignment of the tiled vector into the relative-time column
(line 94): the i-th value goes to the i-th row. -/
def setRTime (rows : List SRow) (vals : List ℚ) : List SRow :=
  (rows.zip vals).map fun p =>
    ⟨p.1.sampleIdx, p.1.time, p.1.eventId, p.1.epochIdx, some p.2, p.1.sacc, p.1.fixa, p.1.blin⟩

/-- The write of lines 125 to 131 for one contained discrete row `iii` of
one epoch: rows of that epoch whose absolute `time` lies strictly between
the `stime` and `etime` of row `iii` receive, for every column of the kind,
the value of row 0 of the table (`this_in[column][0]` at line 130 reads
row 0, not row `iii`). -/
def writeEvent (k : Kind) (row0 rowIii : DRow) (epoch : ℕ) (tbl : List SRow) : List SRow :=
  tbl.map fun r =>
    if r.epochIdx = epoch ∧ rowIii.stime < r.time ∧ r.time < rowIii.etime then
      r.setKind k (some row0)
    else r

/-- Lines 123 to 131 for one `(epoch, ind)` pair: skipped unless
`np.any(ind)` holds, which is false both for an empty `ind` and for
`ind = [0]` (indices are truthy-tested, not counted). -/
def procEpoch (k : Kind) (thisIn : List DRow) (epoch : ℕ) (ind : List ℕ) (tbl : List SRow) :
    Except PyErr (List SRow) :=
  if ind.any fun i => decide (i ≠ 0) then
    ind.foldlM (fun t iii =>
      match thisIn[iii]?, thisIn[0]? with
      | some rowIii, some row0 => Except.ok (writeEvent k row0 rowIii epoch t)
      | _, _ => Except.error PyErr.indexError) tbl
  else Except.ok tbl

/-- Distinct epoch indices of the table in ascending order, modelling
`set(d.index.labels[0])` at line 122 (the sorted table carries its epoch
indices 0..n-1 grouped in ascending order, and a Python set of small
integers iterates in ascending order). -/
def epochLabels (tbl : List SRow) : List ℕ := (tbl.map fun r => r.epochIdx).dedup

/-- Lines 117 to 131 for one kind: `getattr(raw, kind, None)` followed by an
unconditional `this_in.columns` (AttributeError when the table is absent),
then per admissible id the zip of the global ascending epoch list with that
id's recorded `ind` lists, exactly as the source zips them. -/
def attributeKind (k : Kind) (df? : Option (List DRow)) (accepted : List Acc) (ids : List ℤ)
    (tbl : List SRow) : Except PyErr (List SRow) :=
  match df? with
  | none => Except.error PyErr.attributeError
  | some thisIn =>
    ids.foldlM (fun t id =>
      ((epochLabels t).zip
          ((accepted.filter fun a => decide (a.code = id)).map fun a => a.kindInds k)).foldlM
        (fun t2 p => procEpoch k thisIn p.1 p.2 t2) t) tbl

/-- The attributor of lines 117 to 131: the three kinds in source order. -/
def attributeAll (raw : Raw) (accepted : List Acc) (ids : List ℤ) (tbl : List SRow) :
    Except PyErr (List SRow) :=
  match attributeKind Kind.saccade raw.saccades accepted ids tbl with
  | Except.error e => Except.error e
  | Except.ok t1 =>
    match attributeKind Kind.fixation raw.fixations accepted ids t1 with
    | Except.error e => Except.error e
    | Except.ok t2 => attributeKind Kind.blink raw.blinks accepted ids t2

/-- `Epochs.__init__` (lines 26 to 131) as one fallible construction
returning the final assembled table.  Note that line 94 assigns
`np.tile(times, n_epochs)` where `times` is the absolute time vector
returned by `raw[:]` at line 31, not the relative axis `self.times` of
line 93; its length is `n_raw * n_epochs`, which cannot match the table's
`n_epochs * min_samples` rows once a marker was accepted, so the assignment
raises a length mismatch. -/
def epochsInit (raw : Raw) (events : List (ℕ × ℤ)) (cfg : Cfg) : Except PyErr (List SRow) :=
  match extractLoop raw cfg [] events with
  | Except.error e => Except.error e
  | Except.ok accepted =>
    match minSamplesOf accepted with
    | none => Except.error PyErr.valueErrorEmptyMin
    | some ms =>
      match assembleGroupsE raw ms accepted cfg.myEventId.dedup with
      | Except.error e => Except.error e
      | Except.ok rows =>
        if ((!(trackIndsOf ms accepted cfg.myEventId.dedup).isEmpty
            && (trackIndsOf ms accepted cfg.myEventId.dedup).all fun n => decide (n = ms)) : Bool) then
          if (tile raw.times (trackIndsOf ms accepted cfg.myEventId.dedup).length).length
              = (sortData rows).length then
            if ((setRTime (sortData rows)
                  (tile raw.times (trackIndsOf ms accepted cfg.myEventId.dedup).length)).map
                fun r => (r.epochIdx, r.rtime)).Nodup then
              attributeAll raw accepted cfg.myEventId.dedup
                (setRTime (sortData rows)
                  (tile raw.times (trackIndsOf ms accepted cfg.myEventId.dedup).length))
            else Except.error PyErr.valueErrorDupIndex
          else Except.error PyErr.valueErrorLength
        else Except.error PyErr.assertionError

/-- Specification predicate: what the loop guarantees of every marker it
accepts.  The code is admissible, and for every kind the table was present,
passed the interval assertion, and the recorded indices are an in-window
scan of that table for some window. -/
def AccGood (raw : Raw) (cfg : Cfg) (a : Acc) : Prop :=
  a.code ∈ cfg.myEventId ∧
  ∀ k : Kind, ∃ df lo hi, raw.tableOf k = some df ∧
    (df.all fun r => decide (r.stime < r.etime)) = true ∧
    a.kindInds k = eventInWindow df lo hi

/-- Concrete time-to-index conversion used by the witnesses: the floor of a
nonnegative rational, a uniform sampling rate of one sample per time unit. -/
def natFloor (t : ℚ) : ℕ := (t.num / (t.den : ℤ)).toNat

/-- Witness recording: five samples at times 0..4, all discrete tables
present and empty. -/
def rawA : Raw := ⟨[0, 1, 2, 3, 4], natFloor, some [], some [], some []⟩

/-- Witness configuration: single admissible code 1, window [0, 2). -/
def cfgA : Cfg := ⟨[1], 0, 2⟩

/-- Accepted marker produced from `(1, 1)` under `rawA`, `cfgA`. -/
def accA0 : Acc := ⟨0, 1, [1, 2], [], [], []⟩

/-- Accepted marker produced from `(2, 1)` under `rawA`, `cfgA`. -/
def accA1 : Acc := ⟨1, 1, [2, 3], [], [], []⟩

/-- Configuration with two admissible codes, used to exhibit the empty-group
unpacking failure. -/
def cfgC1 : Cfg := ⟨[1, 2], 0, 2⟩

/-- First row of the fixation table of the attributor counterexample; its
attribute value 99 is what line 130 actually writes. -/
def rowF0 : DRow := ⟨10, 11, [99]⟩

/-- Second row of the fixation table of the attributor counterexample: the
row that overlaps the epoch and whose value 7 should be written. -/
def rowF1 : DRow := ⟨3 / 2, 7 / 2, [7]⟩

/-- Recording of the attributor counterexample: fixation table with two
rows, row 1 overlapping the epoch window. -/
def rawC3 : Raw := ⟨[0, 1, 2, 3, 4], natFloor, some [], some [rowF0, rowF1], some []⟩

/-- Window [-1, 3) around the marker, covering samples 0..3. -/
def cfgC3 : Cfg := ⟨[1], -1, 3⟩

/-- The accepted marker of the attributor counterexample: raw range 0..3,
fixation row 1 recorded as contained. -/
def accC3 : Acc := ⟨0, 1, [0, 1, 2, 3], [], [1], []⟩

/-- Recording whose saccade table is absent. -/
def rawC9 : Raw := ⟨[0, 1, 2, 3, 4], natFloor, none, some [], some []⟩

/-- Recording with a degenerate fixation row (stime = etime). -/
def rawC8 : Raw := ⟨[0, 1, 2, 3, 4], natFloor, some [], some [⟨5, 5, []⟩], some []⟩

/-- Sparse recording (one sample per 10 time units) for the single-sample
window counterexample. -/
def rawT : Raw := ⟨[0, 10, 20], fun t => natFloor (t / 10), some [], some [], some []⟩

/-- Window [0, 10) over `rawT`: exactly one sample per epoch. -/
def cfgT : Cfg := ⟨[1], 0, 10⟩

/-- The accepted marker of the single-sample counterexample. -/
def accT : Acc := ⟨0, 1, [0], [], [], []⟩

/-- A one-row table used by the empty-table attributor witness. -/
def rowW : SRow := ⟨1, 1, 1, 0, none, none, none, none⟩

/-- A filter by a pointwise false predicate is empty. -/
theorem filter_eq_nil_of_false {α : Type} {p : α → Bool} {l : List α}
    (h : ∀ x ∈ l, p x = false) : l.filter p = [] := by
  induction l with
  | nil => rfl
  | cons a t ih =>
    rw [List.filter_cons, if_neg (by simp [h a (List.mem_cons_self a t)])]
    exact ih fun x hx => h x (List.mem_cons_of_mem a hx)

/-- A flatMap of pointwise empty lists is empty. -/
theorem flatMap_eq_nil_of {α β : Type} {f : α → List β} {l : List α}
    (h : ∀ x ∈ l, f x = []) : l.flatMap f = [] := by
  induction l with
  | nil => rfl
  | cons a t ih =>
    rw [List.flatMap_cons, h a (List.mem_cons_self a t), List.nil_append]
    exact ih fun x hx => h x (List.mem_cons_of_mem a hx)

/-- A flatMap over a duplicate-free list collapsing to one member. -/
theorem flatMap_eq_single {α β : Type} {f : α → List β} {x : α} {l : List α}
    (hnd : l.Nodup) (hx : x ∈ l) (hz : ∀ y ∈ l, y ≠ x → f y = []) :
    l.flatMap f = f x := by
  induction l with
  | nil => exact absurd hx (List.not_mem_nil x)
  | cons a t ih =>
    obtain ⟨hat, hndt⟩ := List.nodup_cons.mp hnd
    rw [List.flatMap_cons]
    rcases List.mem_cons.mp hx with heq | hmem
    · subst heq
      rw [flatMap_eq_nil_of fun y hy =>
        hz y (List.mem_cons_of_mem x hy) (fun hyx => hat (hyx ▸ hy)), List.append_nil]
    · rw [hz a (List.mem_cons_self a t) (fun hax => hat (hax ▸ hmem)), List.nil_append]
      exact ih hndt hmem fun y hy hyx => hz y (List.mem_cons_of_mem a hy) hyx

/-- Sum of a pointwise zero map. -/
theorem sum_map_zero_of {α : Type} {g : α → ℕ} {l : List α}
    (h : ∀ x ∈ l, g x = 0) : (l.map g).sum = 0 := by
  induction l with
  | nil => rfl
  | cons a t ih =>
    simp only [List.map_cons, List.sum_cons, h a (List.mem_cons_self a t),
      ih fun x hx => h x (List.mem_cons_of_mem a hx)]

/-- Over a duplicate-free index list, summing an indicator supported at one
member yields its value. -/
theorem sum_map_ite_single {c : ℤ} {v : ℕ} {ids : List ℤ}
    (hnd : ids.Nodup) (hc : c ∈ ids) :
    (ids.map fun id => if c = id then v else 0).sum = v := by
  induction ids with
  | nil => exact absurd hc (List.not_mem_nil c)
  | cons a t ih =>
    obtain ⟨hat, hndt⟩ := List.nodup_cons.mp hnd
    rcases List.mem_cons.mp hc with heq | hmem
    · subst heq
      have hz : ∀ x ∈ t, (if c = x then v else 0) = 0 := by
        intro x hx
        rw [if_neg]
        intro hcx
        subst hcx
        exact hat hx
      simp [List.map_cons, List.sum_cons, sum_map_zero_of hz]
    · have hne : ¬c = a := by
        intro hca
        subst hca
        exact hat hmem
      simp only [List.map_cons, List.sum_cons, if_neg hne, ih hndt hmem, Nat.zero_add]

/-- Sums distribute over pointwise addition of maps. -/
theorem sum_map_add_distrib {α : Type} (f g : α → ℕ) (l : List α) :
    (l.map fun x => f x + g x).sum = (l.map f).sum + (l.map g).sum := by
  induction l with
  | nil => rfl
  | cons a t ih => simp only [List.map_cons, List.sum_cons, ih]; omega

/-- Sum of a map that is constant on members. -/
theorem sum_map_const_on {α : Type} {g : α → ℕ} {c : ℕ} {l : List α}
    (h : ∀ x ∈ l, g x = c) : (l.map g).sum = l.length * c := by
  induction l with
  | nil => simp
  | cons a t ih =>
    simp only [List.map_cons, List.sum_cons, h a (List.mem_cons_self a t),
      ih fun x hx => h x (List.mem_cons_of_mem a hx), List.length_cons]
    ring

/-- Regrouping a sum over accepted markers by their event code (the codes
all occur in the duplicate-free id list) loses nothing. -/
theorem sum_grouped (g : Acc → ℕ) (accepted : List Acc) (ids : List ℤ)
    (hnd : ids.Nodup) (hcodes : ∀ a ∈ accepted, a.code ∈ ids) :
    (ids.map fun id => ((accepted.filter fun a => decide (a.code = id)).map g).sum).sum
      = (accepted.map g).sum := by
  induction accepted with
  | nil => simp
  | cons a t ih =>
    have hstep : ∀ id : ℤ,
        (((a :: t).filter fun x => decide (x.code = id)).map g).sum
          = (if a.code = id then g a else 0)
            + ((t.filter fun x => decide (x.code = id)).map g).sum := by
      intro id
      by_cases h : a.code = id
      · simp [List.filter_cons, h]
      · simp [List.filter_cons, h]
    calc (ids.map fun id => (((a :: t).filter fun x => decide (x.code = id)).map g).sum).sum
        = (ids.map fun id => (if a.code = id then g a else 0)
            + ((t.filter fun x => decide (x.code = id)).map g).sum).sum := by
          rw [List.map_congr_left fun id _ => hstep id]
      _ = (ids.map fun id => if a.code = id then g a else 0).sum
            + (ids.map fun id => ((t.filter fun x => decide (x.code = id)).map g).sum).sum :=
          sum_map_add_distrib _ _ ids
      _ = g a + (t.map g).sum := by
          rw [sum_map_ite_single hnd (hcodes a (List.mem_cons_self a t)),
            ih fun x hx => hcodes x (List.mem_cons_of_mem a hx)]
      _ = ((a :: t).map g).sum := by simp

/-- Inversion of the per-kind window scan: success means the table was
present, every row passed the interval assertion, and the result is the
in-window scan of that table. -/
theorem windowEvents_ok {df? : Option (List DRow)} {lo hi : ℚ} {l : List ℕ}
    (h : windowEvents df? lo hi = Except.ok l) :
    ∃ df, df? = some df ∧ (df.all fun r => decide (r.stime < r.etime)) = true ∧
      l = eventInWindow df lo hi := by
  cases df? with
  | none => simp [windowEvents] at h
  | some df =>
    refine ⟨df, rfl, ?_⟩
    simp only [windowEvents] at h
    split at h
    · refine ⟨by assumption, ?_⟩
      injection h with h2
      exact h2.symm
    · cases h

/-- Inversion of acceptance: an accepted marker had an admissible code, was
inside the recording, and its per-kind lists come from successful window
scans. -/
theorem markerStep_acc {raw : Raw} {cfg : Cfg} {event : ℕ} {thisId : ℤ}
    {inds s f b : List ℕ}
    (h : markerStep raw cfg event thisId = MarkerRes.acc inds s f b) :
    thisId ∈ cfg.myEventId ∧
    ∃ thisTime, raw.times[event]? = some thisTime ∧
      windowEvents raw.saccades (thisTime + cfg.tmin) (thisTime + cfg.tmax) = Except.ok s ∧
      windowEvents raw.fixations (thisTime + cfg.tmin) (thisTime + cfg.tmax) = Except.ok f ∧
      windowEvents raw.blinks (thisTime + cfg.tmin) (thisTime + cfg.tmax) = Except.ok b ∧
      inds = arange (raw.timeAsIndex (thisTime + cfg.tmin))
        (raw.timeAsIndex (thisTime + cfg.tmax)) := by
  rw [markerStep] at h
  split at h
  case isTrue hmem =>
    refine ⟨hmem, ?_⟩
    split at h
    next => cases h
    next thisTime heq =>
      refine ⟨thisTime, heq, ?_⟩
      split at h
      next => cases h
      next =>
        split at h
        next s2 f2 b2 hws hwf hwb =>
          injection h with h1 h2 h3 h4
          subst h2; subst h3; subst h4
          exact ⟨hws, hwf, hwb, h1.symm⟩
        next => cases h
        next => cases h
        next => cases h
  case isFalse hmem => cases h

/-- The marker loop only grows the accumulator with markers satisfying
`AccGood`. -/
theorem extractLoop_mem (raw : Raw) (cfg : Cfg) (evs : List (ℕ × ℤ)) :
    ∀ (st out : List Acc), extractLoop raw cfg st evs = Except.ok out →
      ∀ a ∈ out, a ∈ st ∨ AccGood raw cfg a := by
  induction evs with
  | nil =>
    intro st out h a ha
    simp only [extractLoop] at h
    injection h with h2
    exact Or.inl (h2 ▸ ha)
  | cons ev rest ih =>
    intro st out h a ha
    obtain ⟨event, thisId⟩ := ev
    simp only [extractLoop] at h
    cases hs : markerStep raw cfg event thisId with
    | skip => rw [hs] at h; exact ih st out h a ha
    | brk =>
      rw [hs] at h
      injection h with h2
      exact Or.inl (h2 ▸ ha)
    | err e => rw [hs] at h; cases h
    | acc inds s f b =>
      rw [hs] at h
      rcases ih _ out h a ha with hmem | hgood
      · rcases List.mem_append.mp hmem with hst | hnew
        · exact Or.inl hst
        · right
          obtain ⟨hcode, thisTime, _, hws, hwf, hwb, _⟩ := markerStep_acc hs
          have ha2 : a = ⟨st.length, thisId, inds, s, f, b⟩ := List.mem_singleton.mp hnew
          subst ha2
          refine ⟨hcode, fun k => ?_⟩
          cases k with
          | saccade =>
            obtain ⟨df, hdf, hall, hl⟩ := windowEvents_ok hws
            exact ⟨df, _, _, hdf, hall, hl⟩
          | fixation =>
            obtain ⟨df, hdf, hall, hl⟩ := windowEvents_ok hwf
            exact ⟨df, _, _, hdf, hall, hl⟩
          | blink =>
            obtain ⟨df, hdf, hall, hl⟩ := windowEvents_ok hwb
            exact ⟨df, _, _, hdf, hall, hl⟩
      · exact Or.inr hgood

/-- The marker loop assigns the epoch indices 0, 1, 2, ... in acceptance
order: the accumulator's `ii` column is always an initial segment of the
naturals. -/
theorem extractLoop_ii (raw : Raw) (cfg : Cfg) (evs : List (ℕ × ℤ)) :
    ∀ (st out : List Acc), extractLoop raw cfg st evs = Except.ok out →
      (st.map fun a => a.ii) = List.range st.length →
      (out.map fun a => a.ii) = List.range out.length := by
  induction evs with
  | nil =>
    intro st out h hst
    simp only [extractLoop] at h
    injection h with h2
    exact h2 ▸ hst
  | cons ev rest ih =>
    intro st out h hst
    obtain ⟨event, thisId⟩ := ev
    simp only [extractLoop] at h
    cases hs : markerStep raw cfg event thisId with
    | skip => rw [hs] at h; exact ih st out h hst
    | brk =>
      rw [hs] at h
      injection h with h2
      exact h2 ▸ hst
    | err e => rw [hs] at h; cases h
    | acc inds s f b =>
      rw [hs] at h
      refine ih _ out h ?_
      rw [List.map_append, hst, List.length_append]
      simp [List.range_succ]

/-- Packaged extraction facts: from a successful extraction starting empty,
every accepted marker has an admissible code, the epoch indices are
0, 1, ..., n-1 in order, the accepted list is duplicate-free, and the epoch
index determines the marker. -/
theorem extractLoop_invariants (raw : Raw) (cfg : Cfg) (events : List (ℕ × ℤ))
    (accepted : List Acc) (hex : extractLoop raw cfg [] events = Except.ok accepted) :
    (∀ a ∈ accepted, a.code ∈ cfg.myEventId)
    ∧ (accepted.map fun a => a.ii) = List.range accepted.length
    ∧ accepted.Nodup
    ∧ ∀ a ∈ accepted, ∀ b ∈ accepted, b.ii = a.ii → b = a := by
  have hmem := extractLoop_mem raw cfg events [] accepted hex
  have hii := extractLoop_ii raw cfg events [] accepted hex (by simp)
  have hndmap : (accepted.map fun a => a.ii).Nodup := by
    rw [hii]
    exact List.nodup_range _
  refine ⟨?_, hii, List.Nodup.of_map _ hndmap, ?_⟩
  · intro a ha
    rcases hmem a ha with h0 | hgood
    · exact absurd h0 (List.not_mem_nil a)
    · exact hgood.1
  · intro a _ b hb hba
    exact List.inj_on_of_nodup_map hndmap hb (by assumption) hba

/-- Every row contributed by one accepted marker carries its epoch index. -/
theorem epochRows_epochIdx {raw : Raw} {ms : ℕ} {a : Acc} {r : SRow}
    (hr : r ∈ epochRows raw ms a) : r.epochIdx = a.ii := by
  simp only [epochRows, List.mem_map] at hr
  obtain ⟨i, _, rfl⟩ := hr
  rfl

/-- Length of one marker's contribution once `ms` is at most its raw
count. -/
theorem epochRows_length {raw : Raw} {ms : ℕ} {a : Acc} (h : ms ≤ a.inds.length) :
    (epochRows raw ms a).length = ms := by
  simp only [epochRows, List.length_map, List.length_take]
  exact min_eq_left h

/-- Sample indices of one marker's contribution: the first `ms` raw sample
indices, so truncation only ever drops trailing samples. -/
theorem epochRows_map_sampleIdx (raw : Raw) (ms : ℕ) (a : Acc) :
    (epochRows raw ms a).map (fun r => r.sampleIdx) = a.inds.take ms := by
  unfold epochRows
  rw [List.map_map]
  have hcomp : ((fun r : SRow => r.sampleIdx) ∘ fun i : ℕ =>
      (⟨i, raw.times.getD i 0, a.code, a.ii, none, none, none, none⟩ : SRow)) = fun i => i := rfl
  rw [hcomp, List.map_id']

/-- In the assembled (pre-sort) table, the rows tagged with the epoch index
of an accepted marker are exactly that marker's contribution. -/
theorem assembleGroups_filter_epoch (raw : Raw) (ms : ℕ) (accepted : List Acc) (ids : List ℤ)
    (a : Acc) (hnd : ids.Nodup) (hacc : accepted.Nodup) (ha : a ∈ accepted)
    (hc : a.code ∈ ids) (hinj : ∀ b ∈ accepted, b.ii = a.ii → b = a) :
    (assembleGroups raw ms accepted ids).filter (fun r => decide (r.epochIdx = a.ii))
      = epochRows raw ms a := by
  have hfb : ∀ b : Acc, b.ii ≠ a.ii →
      (epochRows raw ms b).filter (fun r => decide (r.epochIdx = a.ii)) = [] := by
    intro b hb
    refine filter_eq_nil_of_false fun r hr => ?_
    rw [epochRows_epochIdx hr]
    simp [hb]
  have hfa : (epochRows raw ms a).filter (fun r => decide (r.epochIdx = a.ii))
      = epochRows raw ms a :=
    List.filter_eq_self.mpr fun r hr => by simp [epochRows_epochIdx hr]
  have hne_of : ∀ b ∈ accepted, b ≠ a → b.ii ≠ a.ii := by
    intro b hb hba hii
    exact hba (hinj b hb hii)
  have hzouter : ∀ id ∈ ids, id ≠ a.code →
      (accepted.filter fun x => decide (x.code = id)).flatMap
        (fun b => (epochRows raw ms b).filter (fun r => decide (r.epochIdx = a.ii))) = [] := by
    intro id _ hne2
    refine flatMap_eq_nil_of fun b hb => ?_
    have hbmem := List.mem_filter.mp hb
    have hbcode : b.code = id := by simpa using hbmem.2
    refine hfb b (hne_of b hbmem.1 ?_)
    intro hba
    rw [hba] at hbcode
    exact hne2 hbcode.symm
  have hzinner : ∀ b ∈ accepted.filter fun x => decide (x.code = a.code), b ≠ a →
      (epochRows raw ms b).filter (fun r => decide (r.epochIdx = a.ii)) = [] := by
    intro b hb hba
    exact hfb b (hne_of b (List.mem_filter.mp hb).1 hba)
  have hamem : a ∈ accepted.filter fun x => decide (x.code = a.code) :=
    List.mem_filter.mpr ⟨ha, by simp⟩
  simp only [assembleGroups, List.filter_flatMap]
  rw [flatMap_eq_single hnd hc hzouter,
    flatMap_eq_single (hacc.filter _) hamem hzinner, hfa]

/-- Total length of the assembled (pre-sort) table: accepted markers times
the normalized per-epoch sample count. -/
theorem assembleGroups_length (raw : Raw) (ms : ℕ) (accepted : List Acc) (ids : List ℤ)
    (hnd : ids.Nodup) (hcodes : ∀ a ∈ accepted, a.code ∈ ids)
    (hms : ∀ a ∈ accepted, ms ≤ a.inds.length) :
    (assembleGroups raw ms accepted ids).length = accepted.length * ms := by
  simp only [assembleGroups, List.length_flatMap]
  have h1 : ∀ id : ℤ,
      ((accepted.filter fun x => decide (x.code = id)).flatMap (epochRows raw ms)).length
        = ((accepted.filter fun x => decide (x.code = id)).map fun b => ms).sum := by
    intro id
    rw [List.length_flatMap]
    congr 1
    refine List.map_congr_left fun b hb => ?_
    have hbmem : b ∈ accepted := (List.mem_filter.mp hb).1
    simp only [Function.comp]
    exact epochRows_length (hms b hbmem)
  calc (List.map
        (List.length ∘ fun id =>
          (accepted.filter fun x => decide (x.code = id)).flatMap (epochRows raw ms)) ids).sum
      = (ids.map fun id =>
          ((accepted.filter fun x => decide (x.code = id)).map fun b => ms).sum).sum := by
        refine congrArg List.sum (List.map_congr_left fun id _ => ?_)
        simp only [Function.comp]
        exact h1 id
    _ = (accepted.map fun b => ms).sum := sum_grouped _ accepted ids hnd hcodes
    _ = accepted.length * ms := sum_map_const_on fun x _ => rfl

/-- When every listed id has at least one accepted marker, the group loop
succeeds and yields the concatenated group rows. -/
theorem assembleGroupsE_eq_ok (raw : Raw) (ms : ℕ) (accepted : List Acc) :
    ∀ ids : List ℤ, (∀ id ∈ ids, (accepted.filter fun x => decide (x.code = id)) ≠ []) →
      assembleGroupsE raw ms accepted ids = Except.ok (assembleGroups raw ms accepted ids) := by
  intro ids
  induction ids with
  | nil => intro _; rfl
  | cons id rest ih =>
    intro h
    have hne : ¬((accepted.filter fun x => decide (x.code = id)).isEmpty = true) := by
      rw [List.isEmpty_iff]
      exact h id (List.mem_cons_self id rest)
    simp only [assembleGroupsE, if_neg hne, ih fun x hx => h x (List.mem_cons_of_mem id hx)]
    simp [assembleGroups]

/-- Sorting the assembled table is a permutation, so per-epoch row counts
survive. -/
theorem sortData_countP (p : SRow → Bool) (l : List SRow) :
    (sortData l).countP p = l.countP p :=
  (List.mergeSort_perm l rowLE).countP_eq p

/-- Sorting preserves the number of rows. -/
theorem sortData_length (l : List SRow) : (sortData l).length = l.length :=
  List.length_mergeSort l

/-- C1 (amended): when at least one marker is accepted and every admissible
event code has at least one accepted marker, min_samples is the minimum of
the raw (pre-truncation) window sample counts; the group loop succeeds and
builds the concatenated group rows; the rows of each epoch are exactly the
first min_samples samples of its raw window (truncation drops only trailing
samples); each epoch contributes exactly min_samples rows of the sorted
assembled table; and the table has `accepted * min_samples` rows in total.
Without the every-code condition, construction instead crashes unpacking an
empty group (see the counterexample). -/
theorem c1_row_counts (raw : Raw) (cfg : Cfg) (events : List (ℕ × ℤ))
    (accepted : List Acc) (ms : ℕ)
    (hex : extractLoop raw cfg [] events = Except.ok accepted)
    (hms : minSamplesOf accepted = some ms)
    (hgrp : ∀ id ∈ cfg.myEventId, (accepted.filter fun x => decide (x.code = id)) ≠ []) :
    (∀ a ∈ accepted, ms ≤ a.inds.length)
    ∧ ms ∈ accepted.map (fun a => a.inds.length)
    ∧ assembleGroupsE raw ms accepted cfg.myEventId.dedup
        = Except.ok (assembleGroups raw ms accepted cfg.myEventId.dedup)
    ∧ (∀ a ∈ accepted,
        ((assembleGroups raw ms accepted cfg.myEventId.dedup).filter
          fun r => decide (r.epochIdx = a.ii)).map (fun r => r.sampleIdx) = a.inds.take ms)
    ∧ (∀ a ∈ accepted,
        (sortData (assembleGroups raw ms accepted cfg.myEventId.dedup)).countP
          (fun r => decide (r.epochIdx = a.ii)) = ms)
    ∧ (assembleGroups raw ms accepted cfg.myEventId.dedup).length = accepted.length * ms
    ∧ (sortData (assembleGroups raw ms accepted cfg.myEventId.dedup)).length
        = accepted.length * ms := by
  obtain ⟨hcodes, _, hndacc, hinj⟩ := extractLoop_invariants raw cfg events accepted hex
  have hms2 : (accepted.map fun a => a.inds.length).min? = some ms := hms
  have hle : ∀ a ∈ accepted, ms ≤ a.inds.length := by
    intro a ha
    have h2 := (List.le_min?_iff (fun x y z => le_min_iff) hms2 (x := ms)).mp (le_refl ms)
    exact h2 _ (List.mem_map_of_mem _ ha)
  have hmm : ms ∈ accepted.map fun a => a.inds.length :=
    List.min?_mem (fun x y => min_choice x y) hms2
  have hndids : (cfg.myEventId.dedup).Nodup := List.nodup_dedup _
  have hcodes2 : ∀ a ∈ accepted, a.code ∈ cfg.myEventId.dedup := fun a ha =>
    List.mem_dedup.mpr (hcodes a ha)
  have hgrp2 : ∀ id ∈ cfg.myEventId.dedup,
      (accepted.filter fun x => decide (x.code = id)) ≠ [] :=
    fun id hid => hgrp id (List.mem_dedup.mp hid)
  have hfilters : ∀ a ∈ accepted,
      (assembleGroups raw ms accepted cfg.myEventId.dedup).filter
        (fun r => decide (r.epochIdx = a.ii)) = epochRows raw ms a := by
    intro a ha
    exact assembleGroups_filter_epoch raw ms accepted _ a hndids hndacc ha (hcodes2 a ha)
      (fun b hb hba => hinj a ha b hb hba)
  have hlen := assembleGroups_length raw ms accepted _ hndids hcodes2 hle
  refine ⟨hle, hmm, assembleGroupsE_eq_ok raw ms accepted _ hgrp2, ?_, ?_, hlen, ?_⟩
  · intro a ha
    rw [hfilters a ha]
    exact epochRows_map_sampleIdx raw ms a
  · intro a ha
    rw [sortData_countP, List.countP_eq_length_filter, hfilters a ha]
    exact epochRows_length (hle a ha)
  · rw [sortData_length]
    exact hlen

/-- Witness for the amended row-count claim at a concrete two-marker input:
both epochs truncate to two samples and the table has four rows. -/
theorem c1_row_counts_witness :
    (sortData (assembleGroups rawA 2 [accA0, accA1] (Cfg.myEventId cfgA).dedup)).length
      = [accA0, accA1].length * 2 :=
  (c1_row_counts rawA cfgA [(1, 1), (2, 1)] [accA0, accA1] 2 (by with_unfolding_all decide)
    (by decide) (by decide)).2.2.2.2.2.2

/-- C1 counterexample: admissible codes {1, 2} and input [(1, 1)], so one
marker is accepted (a valid input in the sense of the claim), yet the
construction produces no table at all: the group loop crashes unpacking the
empty code-2 group. -/
theorem c1_counterexample :
    extractLoop rawA cfgC1 [] [(1, 1)] = Except.ok [accA0]
    ∧ epochsInit rawA [(1, 1)] cfgC1 = Except.error PyErr.valueErrorUnpack :=
  ⟨by with_unfolding_all decide, by with_unfolding_all decide⟩

/-- C2: a marker whose converted window bound reaches the end of the sample
table stops the loop entirely, so that marker and every marker after it are
excluded, whatever follows: the loop result on any list containing such a
marker equals its result on the prefix before that marker. -/
theorem c2_break_stops_loop (raw : Raw) (cfg : Cfg) (st : List Acc)
    (l1 l2 : List (ℕ × ℤ)) (event : ℕ) (thisId : ℤ) (thisTime : ℚ)
    (hmem : thisId ∈ cfg.myEventId) (ht : raw.times[event]? = some thisTime)
    (hoob : raw.times.length ≤
      max (raw.timeAsIndex (thisTime + cfg.tmin)) (raw.timeAsIndex (thisTime + cfg.tmax))) :
    extractLoop raw cfg st (l1 ++ (event, thisId) :: l2) = extractLoop raw cfg st l1 := by
  have hbrk : markerStep raw cfg event thisId = MarkerRes.brk := by
    simp only [markerStep, if_pos hmem, ht]
    rw [if_pos hoob]
  induction l1 generalizing st with
  | nil => simp only [List.nil_append, extractLoop, hbrk]
  | cons ev rest ih =>
    obtain ⟨e2, i2⟩ := ev
    simp only [List.cons_append, extractLoop]
    cases hs : markerStep raw cfg e2 i2 with
    | skip =>
      simp only [hs]
      exact ih st
    | brk => simp only [hs]
    | err e => simp only [hs]
    | acc inds s f b =>
      simp only [hs]
      exact ih _

/-- Witness for C2: the marker (4, 1) is admissible but its window reaches
past the five-sample recording, so it and the marker after it contribute
nothing: the loop result equals that of the one-marker prefix. -/
theorem c2_break_stops_loop_witness :
    extractLoop rawA cfgA [] ([(1, 1)] ++ (4, 1) :: [(2, 1)])
      = extractLoop rawA cfgA [] [(1, 1)] :=
  c2_break_stops_loop rawA cfgA [] [(1, 1)] [(2, 1)] 4 1 4 (by decide) (by rfl)
    (by with_unfolding_all decide)

/-- C4: for a table that passed the interval assertion, the recorded set of
one kind is exactly the set of row indices whose half-open event interval
is contained in the half-open marker window. -/
theorem c4_in_window_iff (df : List DRow) (lo hi : ℚ) (l : List ℕ)
    (h : windowEvents (some df) lo hi = Except.ok l) (i : ℕ) :
    i ∈ l ↔ i < df.length ∧
      Set.Ico (df.getD i dfltRow).stime (df.getD i dfltRow).etime ⊆ Set.Ico lo hi := by
  obtain ⟨df2, hdf2, hall, hleq⟩ := windowEvents_ok h
  injection hdf2 with hdf2
  subst hdf2
  subst hleq
  have hlt : i < df.length → (df.getD i dfltRow).stime < (df.getD i dfltRow).etime := by
    intro hilen
    have hg : df.getD i dfltRow = df[i] := by
      rw [List.getD_eq_getElem?_getD, List.getElem?_eq_getElem hilen, Option.getD_some]
    have hmem2 : df.getD i dfltRow ∈ df := by
      rw [hg]
      exact List.getElem_mem hilen
    exact of_decide_eq_true (List.all_eq_true.mp hall _ hmem2)
  constructor
  · intro hi2
    simp only [eventInWindow, List.mem_filter, List.mem_range] at hi2
    obtain ⟨hilen, hcond⟩ := hi2
    rw [Bool.and_eq_true, decide_eq_true_iff, decide_eq_true_iff] at hcond
    refine ⟨hilen, ?_⟩
    rw [Set.Ico_subset_Ico_iff (hlt hilen)]
    exact hcond
  · rintro ⟨hilen, hsub⟩
    rw [Set.Ico_subset_Ico_iff (hlt hilen)] at hsub
    simp only [eventInWindow, List.mem_filter, List.mem_range]
    refine ⟨hilen, ?_⟩
    rw [Bool.and_eq_true, decide_eq_true_iff, decide_eq_true_iff]
    exact hsub

/-- Witness for C4: the single row of a one-row table lies in the window
[0, 2) and is indeed recorded. -/
theorem c4_in_window_iff_witness :
    0 < ([⟨0, 1, []⟩] : List DRow).length
    ∧ Set.Ico (([⟨0, 1, []⟩] : List DRow).getD 0 dfltRow).stime
        (([⟨0, 1, []⟩] : List DRow).getD 0 dfltRow).etime ⊆ Set.Ico (0 : ℚ) 2 :=
  (c4_in_window_iff [⟨0, 1, []⟩] 0 2 [0] (by rfl) 0).mp (by decide)

/-- C3 (code bug at line 130): fixation row 1 is recorded as contained in
the single epoch and its interval (3/2, 7/2) selects the rows at times 2
and 3, but the attributor writes the attribute values of row 0 of the table
into them — `this_in[column][0]` reads row 0, not row `iii` — so the
written cell is rowF0 (attrs [99]) instead of the overlapping rowF1
(attrs [7]). -/
theorem c3_wrong_row_written :
    extractLoop rawC3 cfgC3 [] [(1, 1)] = Except.ok [accC3]
    ∧ attributeAll rawC3 [accC3] [1] (sortData (assembleGroups rawC3 4 [accC3] [1]))
        = Except.ok
          [⟨0, 0, 1, 0, none, none, none, none⟩, ⟨1, 1, 1, 0, none, none, none, none⟩,
            ⟨2, 2, 1, 0, none, none, some rowF0, none⟩, ⟨3, 3, 1, 0, none, none, some rowF0, none⟩]
    ∧ rowF0 ≠ rowF1 :=
  ⟨by with_unfolding_all decide, by with_unfolding_all decide, by with_unfolding_all decide⟩

/-- C5 (code bug at line 66): with input [(0, 2), (1, 1)] and admissible
code 1, the loop skips the first marker and accepts the second, yet
`self.events = events[keep_idx]` selects the first input row — the skipped,
inadmissible marker (0, 2) — because `keep_idx` collects the counter `ii`,
not the marker's position, so it is always [0, ..., nAcc-1]. -/
theorem c5_wrong_events_selected :
    extractLoop rawA cfgA [] [(0, 2), (1, 1)] = Except.ok [accA0]
    ∧ selfEvents [(0, 2), (1, 1)] [accA0].length = [(0, 2)]
    ∧ ((0, 2) : ℕ × ℤ) ≠ (1, 1) :=
  ⟨by with_unfolding_all decide, by decide, by decide⟩

/-- C6 (code bug at line 94): with one accepted marker, construction
reaches the relative-time assignment and crashes with a length mismatch: it
tiles the absolute time vector of `raw[:]` (5 values here) instead of the
relative axis `self.times` (2 values), for a 2-row table.  Tiling the
relative axis would have matched the table exactly. -/
theorem c6_absolute_times_tiled :
    epochsInit rawA [(1, 1)] cfgA = Except.error PyErr.valueErrorLength
    ∧ (tile (Raw.times rawA) 1).length = 5
    ∧ (tile (linspace (Cfg.tmin cfgA) (Cfg.tmax cfgA) 2) 1).length = 2 :=
  ⟨by with_unfolding_all decide, by with_unfolding_all decide, by with_unfolding_all decide⟩

/-- C7 (amended): when no marker is accepted, construction always fails
fatally and never returns a collection — but through the generic ValueError
of reducing an empty list with `np.min` at line 70, not through a dedicated
no-epochs error (the code defines none). -/
theorem c7_zero_accepted_fails (raw : Raw) (events : List (ℕ × ℤ)) (cfg : Cfg)
    (hex : extractLoop raw cfg [] events = Except.ok []) :
    epochsInit raw events cfg = Except.error PyErr.valueErrorEmptyMin := by
  simp only [epochsInit, hex]
  rfl

/-- Witness for the amended zero-accepted behavior: a single inadmissible
marker. -/
theorem c7_zero_accepted_fails_witness :
    epochsInit rawA [(0, 5)] cfgA = Except.error PyErr.valueErrorEmptyMin :=
  c7_zero_accepted_fails rawA [(0, 5)] cfgA (by with_unfolding_all decide)

/-- C7 counterexample: zero markers match the admissible code, and the
error construction raises is the empty-reduction ValueError of line 70;
no dedicated no-epochs error exists anywhere in the construction. -/
theorem c7_counterexample :
    epochsInit rawA [(0, 7), (1, 9)] cfgA = Except.error PyErr.valueErrorEmptyMin := by
  with_unfolding_all decide

/-- C8: a degenerate discrete event (start time at or past end time) in any
of the three tables makes construction fail fatally before any collection
is produced: if a marker reaches acceptance, the elementwise interval
assert of line 62 fires (or an absent earlier table raises), so no marker
is ever accepted, and with zero accepted markers the empty reduction of
line 70 raises. -/
theorem c8_bad_interval_fatal (raw : Raw) (events : List (ℕ × ℤ)) (cfg : Cfg)
    (k : Kind) (df : List DRow) (r : DRow)
    (htab : raw.tableOf k = some df) (hr : r ∈ df) (hbad : r.etime ≤ r.stime) :
    ∃ e, epochsInit raw events cfg = Except.error e := by
  cases hres : extractLoop raw cfg [] events with
  | error e =>
    refine ⟨e, ?_⟩
    simp only [epochsInit, hres]
  | ok out =>
    have hout : out = [] := by
      by_contra hne
      obtain ⟨a, ha⟩ := List.exists_mem_of_ne_nil out hne
      rcases extractLoop_mem raw cfg events [] out hres a ha with h0 | hgood
      · exact List.not_mem_nil a h0
      · obtain ⟨df2, lo, hi, htab2, hall, _⟩ := hgood.2 k
        rw [htab] at htab2
        injection htab2 with hdf
        subst hdf
        have hlt := of_decide_eq_true (List.all_eq_true.mp hall r hr)
        exact absurd hlt (not_lt.mpr hbad)
    subst hout
    refine ⟨PyErr.valueErrorEmptyMin, ?_⟩
    simp only [epochsInit, hres]
    rfl

/-- Witness for C8: a degenerate fixation row aborts construction. -/
theorem c8_bad_interval_fatal_witness :
    ∃ e, epochsInit rawC8 [(1, 1)] cfgA = Except.error e :=
  c8_bad_interval_fatal rawC8 [(1, 1)] cfgA Kind.fixation [⟨5, 5, []⟩] ⟨5, 5, []⟩
    (by rfl) (by decide) (by decide)

/-- A fold of per-epoch writes over pairs with empty `ind` lists changes
nothing, because `np.any` of an empty index list is false. -/
theorem foldlM_procEpoch_nil (k : Kind) (thisIn : List DRow) (ps : List (ℕ × List ℕ)) :
    ∀ tbl : List SRow, (∀ p ∈ ps, p.2 = []) →
      ps.foldlM (fun t2 p => procEpoch k thisIn p.1 p.2 t2) tbl = Except.ok tbl := by
  induction ps with
  | nil => intro tbl _; rfl
  | cons p t ih =>
    intro tbl h
    have hp : p.2 = [] := h p (List.mem_cons_self p t)
    rw [List.foldlM_cons]
    have hstep : procEpoch k thisIn p.1 p.2 tbl = Except.ok tbl := by
      rw [hp]
      rfl
    rw [hstep]
    exact ih tbl fun q hq => h q (List.mem_cons_of_mem p hq)

/-- A monadic id fold whose step always returns its input unchanged. -/
theorem foldlM_const_ok {β : Type} (F : List SRow → β → Except PyErr (List SRow))
    (l : List β) : ∀ tbl : List SRow, (∀ t x, F t x = Except.ok t) →
      l.foldlM F tbl = Except.ok tbl := by
  induction l with
  | nil => intro tbl _; rfl
  | cons x t ih =>
    intro tbl h
    rw [List.foldlM_cons, h tbl x]
    exact ih tbl h

/-- C9 (amended): an empty discrete table for a kind is harmless — the
attributor pass of that kind performs no writes and raises no error,
because the recorded in-window lists of an empty table are all empty; an
absent table, by contrast, makes construction fail with an AttributeError
(see the counterexample). -/
theorem c9_empty_table_noop (k : Kind) (raw : Raw) (cfg : Cfg) (events : List (ℕ × ℤ))
    (accepted : List Acc) (ids : List ℤ) (tbl : List SRow)
    (hex : extractLoop raw cfg [] events = Except.ok accepted)
    (hemp : raw.tableOf k = some []) :
    attributeKind k (raw.tableOf k) accepted ids tbl = Except.ok tbl := by
  have hinds : ∀ a ∈ accepted, a.kindInds k = [] := by
    intro a ha
    rcases extractLoop_mem raw cfg events [] accepted hex a ha with h0 | hgood
    · exact absurd h0 (List.not_mem_nil a)
    · obtain ⟨df, lo, hi, htab, _, heq⟩ := hgood.2 k
      rw [hemp] at htab
      injection htab with hdf
      rw [heq, ← hdf]
      rfl
  rw [hemp]
  simp only [attributeKind]
  refine foldlM_const_ok _ ids tbl ?_
  intro t id
  refine foldlM_procEpoch_nil k [] _ t ?_
  rintro ⟨p1, p2⟩ hp
  have hp2 := (List.of_mem_zip hp).2
  rcases List.mem_map.mp hp2 with ⟨a, hafil, heq2⟩
  rw [← heq2]
  exact hinds a (List.mem_filter.mp hafil).1

/-- Witness: the saccade pass over the empty saccade table leaves a one-row
table unchanged. -/
theorem c9_empty_table_noop_witness :
    attributeKind Kind.saccade (Raw.tableOf rawA Kind.saccade) [accA0] [1] [rowW]
      = Except.ok [rowW] :=
  c9_empty_table_noop Kind.saccade rawA cfgA [(1, 1)] [accA0] [1] [rowW]
    (by with_unfolding_all decide) (by rfl)

/-- C9 counterexample: with the saccade table absent, construction fails
with an AttributeError (line 60 fetches the table with a bare getattr; the
attributor would likewise dereference the None default of line 119) instead
of succeeding with null columns. -/
theorem c9_counterexample :
    epochsInit rawC9 [(1, 1)] cfgA = Except.error PyErr.attributeError := by
  with_unfolding_all decide

/-- C10 (amended): with at least two samples per epoch, the relative time
axis `np.linspace(tmin, tmax, min_samples)` has length min_samples, is
strictly increasing, starts at tmin, ends at tmax, and is evenly spaced
with step (tmax - tmin) / (min_samples - 1).  With min_samples = 1 the axis
is the single point [tmin] and does not reach tmax (see the
counterexample). -/
theorem c10_linspace_props (a b : ℚ) (n : ℕ) (hab : a < b) (hn : 2 ≤ n) :
    (linspace a b n).length = n
    ∧ (linspace a b n).Pairwise (fun x y => x < y)
    ∧ (linspace a b n)[0]? = some a
    ∧ (linspace a b n)[n - 1]? = some b
    ∧ ∀ i : ℕ, i + 1 < n →
        (linspace a b n)[i + 1]?.getD 0 - (linspace a b n)[i]?.getD 0
          = (b - a) / ((n : ℚ) - 1) := by
  have hne1 : n ≠ 1 := by omega
  have hcast : (2 : ℚ) ≤ (n : ℚ) := by exact_mod_cast hn
  have hpos : (0 : ℚ) < (n : ℚ) - 1 := by linarith
  have hnz : ((n : ℚ) - 1) ≠ 0 := ne_of_gt hpos
  simp only [linspace, if_neg hne1]
  have hget : ∀ i : ℕ, i < n →
      ((List.range n).map fun i : ℕ => a + (i : ℚ) * (b - a) / ((n : ℚ) - 1))[i]?
        = some (a + (i : ℚ) * (b - a) / ((n : ℚ) - 1)) := by
    intro i hi
    rw [List.getElem?_map, List.getElem?_range hi, Option.map_some']
  refine ⟨by simp, ?_, ?_, ?_, ?_⟩
  · refine List.Pairwise.map _ ?_ (List.pairwise_lt_range n)
    intro i j hij
    have hij2 : (i : ℚ) < j := by exact_mod_cast hij
    have h1 : (i : ℚ) * (b - a) < j * (b - a) :=
      mul_lt_mul_of_pos_right hij2 (by linarith)
    have h2 : (i : ℚ) * (b - a) / ((n : ℚ) - 1) < (j : ℚ) * (b - a) / ((n : ℚ) - 1) :=
      (div_lt_div_iff_of_pos_right hpos).mpr h1
    linarith
  · rw [hget 0 (by omega)]
    norm_num
  · rw [hget (n - 1) (by omega)]
    have hc2 : ((n - 1 : ℕ) : ℚ) = (n : ℚ) - 1 := by
      rw [Nat.cast_sub (by omega)]
      norm_num
    rw [hc2, mul_div_cancel_left₀ (b - a) hnz]
    have hsum : a + (b - a) = b := by ring
    rw [hsum]
  · intro i hi
    rw [hget (i + 1) hi, hget i (by omega)]
    simp only [Option.getD_some]
    push_cast
    ring

/-- Witness for the amended axis properties: two samples between 0 and 1. -/
theorem c10_linspace_props_witness :
    (linspace (0 : ℚ) 1 2).length = 2
    ∧ (linspace (0 : ℚ) 1 2)[0]? = some 0
    ∧ (linspace (0 : ℚ) 1 2)[2 - 1]? = some 1 :=
  ⟨(c10_linspace_props 0 1 2 (by norm_num) (by norm_num)).1,
    (c10_linspace_props 0 1 2 (by norm_num) (by norm_num)).2.2.1,
    (c10_linspace_props 0 1 2 (by norm_num) (by norm_num)).2.2.2.1⟩

/-- C10 counterexample: a sparse recording whose accepted window holds a
single sample, so min_samples = 1 with tmin strictly below tmax, yet the
relative axis is the single point [tmin]: it does not end at tmax. -/
theorem c10_counterexample :
    extractLoop rawT cfgT [] [(0, 1)] = Except.ok [accT]
    ∧ minSamplesOf [accT] = some 1
    ∧ Cfg.tmin cfgT < Cfg.tmax cfgT
    ∧ linspace (Cfg.tmin cfgT) (Cfg.tmax cfgT) 1 = [0]
    ∧ ((0 : ℚ) ≠ Cfg.tmax cfgT) :=
  ⟨by with_unfolding_all decide, by decide, by with_unfolding_all decide,
    by with_unfolding_all decide, by with_unfolding_all decide⟩

end PyLinkParse
